import Mathlib

/-!
Shallow embedding of the response-grouping engine of the
Family-Feud-Style Survey Analytics Platform backend:
text normalization and greedy clustering (`backend/nlp/nlp_pipeline.py`),
the celery processing task (`backend/celery_worker.py`), and the
group-editing operations rename and move-answer-between-groups
(`backend/services/survey_service.py`).

External collaborators (NLTK `word_tokenize`, fuzzywuzzy `fuzz.WRatio`)
are parameters of the embedded pipeline; database reads and writes are
modelled by explicit state passing on the persisted `SurveyGroupedResults`
document.  Python exceptions that can escape are modelled with `Except`.
-/

namespace FeudSpec

/-- Data model `GroupedAnswer` from `backend/models/grouped_result.py`:
one canonical group of similar answers.  `count` is a Python `int`. -/
structure GroupedAnswer where
  canonical_name : String
  count : Int
  raw_answers : List String
deriving Repr, DecidableEq

/-- Data model `SurveyGroupedResults` from `backend/models/grouped_result.py`
(the `survey_id` and Mongo `_id` keys are fixed per document and carry no
content relevant to the engine; `processing_time_utc` is an abstract
timestamp). -/
structure SurveyGroupedResults where
  processing_time_utc : Nat
  status : String
  grouped_answers : List GroupedAnswer
  errors : List String
deriving Repr, DecidableEq

/-- Request body `MoveAnswerRequest` from `backend/models/grouped_result.py`. -/
structure MoveAnswerRequest where
  raw_answer_text : String
  source_group_canonical_name : String
  destination_group_canonical_name : String
deriving Repr, DecidableEq

/-- The characters of Python `string.punctuation`
(apostrophe and backtick written by character code). -/
def string_punctuation : List Char :=
  "!\"#$%&".toList ++ [Char.ofNat 39] ++ "()*+,-./:;<=>?@[\\]^_".toList
    ++ [Char.ofNat 96] ++ "\x7b|\x7d~".toList

/-- Python `str.lower()` (ASCII case folding, which is all the engine's
claims depend on). -/
def pyLower (s : String) : String := String.mk (s.data.map Char.toLower)

/-- Python `" ".join(tokens)`. -/
def joinTokens : List String → String
  | [] => ""
  | [t] => t
  | t :: ts => t ++ " " ++ joinTokens ts

/-- Python `str.strip()`: drop leading and trailing whitespace. -/
def pyStrip (s : String) : String :=
  String.mk (((s.data.dropWhile Char.isWhitespace).reverse.dropWhile
    Char.isWhitespace).reverse)

/-- The `preprocess_text` function of `backend/nlp/nlp_pipeline.py` with
`remove_stopwords = False` (as called by `group_responses`): lower-case,
strip `string.punctuation`, tokenize with the external NLTK `word_tokenize`
(a parameter `wt`), drop empty tokens, join with single spaces. -/
def preprocess_text (wt : String → List String) (text : String) : String :=
  joinTokens ((wt (String.mk ((pyLower text).data.filter
    (fun c => !(string_punctuation.contains c))))).filter (fun w => w ≠ ""))

/-- The `calculate_similarity` function of `backend/nlp/nlp_pipeline.py`:
returns 0 when either string is empty, otherwise defers to the external
`fuzz.WRatio` (a parameter). -/
def calculate_similarity (WRatio : String → String → Nat) (t1 t2 : String) : Nat :=
  if t1 = "" ∨ t2 = "" then 0 else WRatio t1 t2

/-- The validity filter of `group_responses` step 1
(`if original_ans and original_ans.strip():`): keeps a raw answer exactly
when it is non-empty and not whitespace-only. -/
def validAnswer (s : String) : Bool :=
  s ≠ "" && pyStrip s ≠ ""

/-- The `processed_data` list built by `group_responses`: surviving raw
answers paired with their preprocessed forms, in input order. -/
def processedData (wt : String → List String) (raws : List String) :
    List (String × String) :=
  (raws.filter validAnswer).map (fun s => (s, preprocess_text wt s))

/-- The greedy single-pass clustering loop of `group_responses`
(`backend/nlp/nlp_pipeline.py`, lines 118-152), written with explicit fuel
so that it is structurally recursive: the recursive call always receives a
strictly shorter list, so any fuel of at least the list's length computes
the loop exactly (`greedy` below supplies it). -/
def greedyAux (score : String → String → Nat) (threshold : Nat) :
    Nat → List (String × String) → List GroupedAnswer
  | _, [] => []
  | 0, _ :: _ => []
  | fuel + 1, (o, p) :: rest =>
    { canonical_name := p,
      count := ((o :: (rest.filter (fun q => decide (threshold ≤ score p q.2))).map Prod.fst).length : Int),
      raw_answers := o :: (rest.filter (fun q => decide (threshold ≤ score p q.2))).map Prod.fst }
      :: greedyAux score threshold fuel (rest.filter (fun q => !(decide (threshold ≤ score p q.2))))

/-- The greedy clustering loop: the first unassigned entry seeds a group
named by its processed form; every later unassigned entry whose similarity
to the seed reaches the threshold joins the group, and the loop repeats on
the entries left unassigned. -/
def greedy (score : String → String → Nat) (threshold : Nat)
    (l : List (String × String)) : List GroupedAnswer :=
  greedyAux score threshold l.length l

/-- Stable descending insertion of a group into a list already sorted by
`count` descending: the inserted group is placed before every group of
equal or smaller count (the inserted group is always earlier in discovery
order than the groups already in the sorted tail). -/
def insertGroup (g : GroupedAnswer) : List GroupedAnswer → List GroupedAnswer
  | [] => [g]
  | h :: t => if h.count ≤ g.count then g :: h :: t else h :: insertGroup g t

/-- The stable sort by `count` descending performed by
`groups.sort(key=lambda x: x["count"], reverse=True)` in
`group_responses`; Python's sort is stable, and the stable descending
sort of a list is unique, so this insertion sort is the same function. -/
def sortGroups : List GroupedAnswer → List GroupedAnswer
  | [] => []
  | h :: t => insertGroup h (sortGroups t)

/-- The groups in the order the clustering loop discovers them, before the
final sort of `group_responses`. -/
def discovered_groups (wt : String → List String) (WRatio : String → String → Nat)
    (raws : List String) (threshold : Nat) : List GroupedAnswer :=
  greedy (calculate_similarity WRatio) threshold (processedData wt raws)

/-- The `group_responses` function of `backend/nlp/nlp_pipeline.py`:
filter invalid answers, preprocess, cluster greedily, sort by count
descending (stable).  Returns `[]` for empty input and for input with no
surviving answers, as the source does. -/
def group_responses (wt : String → List String) (WRatio : String → String → Nat)
    (raw_answers : List String) (similarity_threshold : Nat) : List GroupedAnswer :=
  if raw_answers = [] then []
  else if processedData wt raw_answers = [] then []
  else sortGroups (greedy (calculate_similarity WRatio) similarity_threshold
    (processedData wt raw_answers))

/-- A value read from a response document's `answer_text` field: either a
Python string or something of another type (absent, `None`, a number ...). -/
inductive PyVal where
  | str : String → PyVal
  | other : PyVal
deriving Repr, DecidableEq

/-- Extraction used by the celery task: keep `answer_text` exactly when it
is a string (`isinstance(doc.get("answer_text"), str)`). -/
def answerTextOf : PyVal → Option String
  | .str s => some s
  | .other => none

/-- The result-assembling core of `process_survey_responses_task`
(`backend/celery_worker.py`, lines 47-109): filter out non-string answers;
if none remain, persist a `completed_no_data` document with an explanatory
error; otherwise run `group_responses` at the default threshold 85 and
persist a `completed` document with no errors. -/
def process_survey_responses_task (wt : String → List String)
    (WRatio : String → String → Nat) (docs : List PyVal) (now : Nat) :
    SurveyGroupedResults :=
  let raw_answer_texts := docs.filterMap answerTextOf
  if raw_answer_texts = [] then
    { processing_time_utc := now, status := "completed_no_data",
      grouped_answers := [], errors := ["No valid answer texts found to process."] }
  else
    { processing_time_utc := now, status := "completed",
      grouped_answers := group_responses wt WRatio raw_answer_texts 85,
      errors := [] }

/-- The positional-operator update of
`update_group_canonical_name`: Mongo's `$` rewrites the first array
element whose `canonical_name` equals the query value. -/
def setFirstName (cur new : String) : List GroupedAnswer → List GroupedAnswer
  | [] => []
  | g :: rest =>
    if g.canonical_name = cur then { g with canonical_name := new } :: rest
    else g :: setFirstName cur new rest

/-- The `update_group_canonical_name` service
(`backend/services/survey_service.py`, lines 91-133): if some group's
`canonical_name` equals `cur`, rename the first such group to `new`,
refresh the document timestamp, persist, and return the updated document;
otherwise return `None` and leave the document untouched.  The returned
pair is (value returned to the caller, persisted document afterwards). -/
def update_group_canonical_name (st : SurveyGroupedResults) (cur new : String)
    (now : Nat) : Option SurveyGroupedResults × SurveyGroupedResults :=
  if ∃ g ∈ st.grouped_answers, g.canonical_name = cur then
    let st' : SurveyGroupedResults :=
      { st with grouped_answers := setFirstName cur new st.grouped_answers,
                processing_time_utc := now }
    (some st', st')
  else (none, st)

/-- A Python exception escaping the move operation. -/
inductive PyExn where
  | attributeError
deriving Repr, DecidableEq

instance {ε α : Type} [DecidableEq ε] [DecidableEq α] : DecidableEq (Except ε α) :=
  fun x y =>
    match x, y with
    | .ok a, .ok b => if h : a = b then isTrue (by rw [h]) else isFalse (by simp [h])
    | .error e, .error f => if h : e = f then isTrue (by rw [h]) else isFalse (by simp [h])
    | .ok _, .error _ => isFalse (by simp)
    | .error _, .ok _ => isFalse (by simp)

/-- An element of the in-memory `grouped_answers_list` inside
`move_answer_between_groups`: either a Pydantic `GroupedAnswer` model
(attribute access works) or the plain dict appended for a newly created
destination group (attribute access raises `AttributeError`). -/
inductive MoveEntry where
  | model : GroupedAnswer → MoveEntry
  | dict : GroupedAnswer → MoveEntry
deriving Repr, DecidableEq

/-- Step 2 of `move_answer_between_groups`: scan for the first group named
`src`; if the answer is present there, remove its first occurrence and
decrement the count.  Returns the updated list and the two flags
`source_group_found` and `answer_found_in_source`. -/
def removeFromSource (ans src : String) :
    List GroupedAnswer → List GroupedAnswer × Bool × Bool
  | [] => ([], false, false)
  | g :: rest =>
    if g.canonical_name = src then
      if ans ∈ g.raw_answers then
        ({ g with raw_answers := g.raw_answers.erase ans, count := g.count - 1 } :: rest,
         true, true)
      else (g :: rest, true, false)
    else
      let r := removeFromSource ans src rest
      (g :: r.1, r.2.1, r.2.2)

/-- Step 3 of `move_answer_between_groups` when the destination exists:
append the answer to the first group named `dst` and increment its count;
`none` when no group is named `dst`. -/
def addToDest (ans dst : String) : List GroupedAnswer → Option (List GroupedAnswer)
  | [] => none
  | g :: rest =>
    if g.canonical_name = dst then
      some ({ g with raw_answers := g.raw_answers ++ [ans], count := g.count + 1 } :: rest)
    else (addToDest ans dst rest).map (g :: ·)

/-- Step 4 of `move_answer_between_groups`: the cleanup list comprehension
`[g for g in l if not (g.canonical_name == src and g.count == 0)]`.
Attribute access on a dict entry raises `AttributeError`. -/
def cleanupFilter (src : String) : List MoveEntry → Except PyExn (List GroupedAnswer)
  | [] => .ok []
  | .dict _ :: _ => .error .attributeError
  | .model g :: rest =>
    match cleanupFilter src rest with
    | .error e => .error e
    | .ok r => if g.canonical_name = src ∧ g.count = 0 then .ok r else .ok (g :: r)

/-- The `move_answer_between_groups` service
(`backend/services/survey_service.py`, lines 135-230).  The first
component is what the caller receives: `.ok none` for the not-found
outcomes, `.ok (some doc)` on success, `.error` for an escaping Python
exception.  The second component is the persisted document afterwards
(the database is only written on the success path). -/
def move_answer_between_groups (st : SurveyGroupedResults)
    (req : MoveAnswerRequest) (now : Nat) :
    Except PyExn (Option SurveyGroupedResults) × SurveyGroupedResults :=
  let r := removeFromSource req.raw_answer_text req.source_group_canonical_name
    st.grouped_answers
  if r.2.1 && r.2.2 then
    let entries : List MoveEntry :=
      match addToDest req.raw_answer_text req.destination_group_canonical_name r.1 with
      | some l2 => l2.map MoveEntry.model
      | none => r.1.map MoveEntry.model ++
          [MoveEntry.dict ⟨req.destination_group_canonical_name, 1, [req.raw_answer_text]⟩]
    match cleanupFilter req.source_group_canonical_name entries with
    | .error e => (.error e, st)
    | .ok final =>
      let st' : SurveyGroupedResults :=
        { st with grouped_answers := final, processing_time_utc := now }
      (.ok (some st'), st')
  else (.ok none, st)

/-! ### Spec-modelled external components

The tokenizer (NLTK `word_tokenize`) and the similarity core
(fuzzywuzzy `fuzz.WRatio`) are third-party code not present in the
repository; the pipeline definitions above take them as parameters, and
the concrete instances below are built from the specification's contracts
so that concrete runs can be evaluated. -/

/-- Modelled from the spec: the Normalizer contract, "splits into tokens
on whitespace/word boundaries" — the NLTK `word_tokenize` implementation
is external to the repository.  Accumulator-based whitespace splitter. -/
def splitWsAux : List Char → List Char → List String
  | [], acc => if acc = [] then [] else [String.mk acc.reverse]
  | c :: cs, acc =>
    if c.isWhitespace then
      if acc = [] then splitWsAux cs [] else String.mk acc.reverse :: splitWsAux cs []
    else splitWsAux cs (c :: acc)

/-- Modelled from the spec: a concrete tokenizer instance for the
`word_tokenize` parameter of the pipeline. -/
def wt_spec (s : String) : List String := splitWsAux s.data []

/-- Levenshtein distance with explicit fuel (structural recursion); any
fuel of at least the sum of the lengths computes the distance. -/
def levAux : Nat → List Char → List Char → Nat
  | _, [], ys => ys.length
  | _, x :: xs, [] => (x :: xs).length
  | 0, _ :: _, _ :: _ => 0
  | fuel + 1, x :: xs, y :: ys =>
    if x = y then levAux fuel xs ys
    else 1 + min (levAux fuel xs (y :: ys)) (min (levAux fuel (x :: xs) ys) (levAux fuel xs ys))

/-- Levenshtein edit distance between two character lists. -/
def lev (xs ys : List Char) : Nat := levAux (xs.length + ys.length) xs ys

/-- Insertion into a sorted token list (for the token-order-tolerant
comparison of the modelled scorer). -/
def insertStr (s : String) : List String → List String
  | [] => [s]
  | h :: t => if s < h then s :: h :: t else h :: insertStr s t

/-- Sort a token list (insertion sort). -/
def sortStrs : List String → List String
  | [] => []
  | h :: t => insertStr h (sortStrs t)

/-- Modelled from the spec: the SimilarityScorer contract, "a
token-order-tolerant lexical distance metric (e.g. a best-alignment
edit-distance ratio)", bounded [0,100] — the fuzzywuzzy `fuzz.WRatio`
implementation is external to the repository.  Tokens are sorted, joined,
and scored by a Levenshtein ratio. -/
def WRatio_spec (a b : String) : Nat :=
  let a' := joinTokens (sortStrs (wt_spec a))
  let b' := joinTokens (sortStrs (wt_spec b))
  let la := a'.data.length
  let lb := b'.data.length
  if la + lb = 0 then 100
  else ((la + lb - lev a'.data b'.data) * 100) / (la + lb)

/-! ### Invariants and observations used by the claims -/

/-- Data-model invariant (§3): every group's `count` equals the length of
its `raw_answers`. -/
def countInvariant (l : List GroupedAnswer) : Prop :=
  ∀ g ∈ l, g.count = (g.raw_answers.length : Int)

instance (l : List GroupedAnswer) : Decidable (countInvariant l) := by
  unfold countInvariant; infer_instance

/-- Data-model invariant (§3): canonical names are pairwise distinct
within a result. -/
def namesNodup (l : List GroupedAnswer) : Prop :=
  (l.map (fun g => g.canonical_name)).Nodup

instance (l : List GroupedAnswer) : Decidable (namesNodup l) := by
  unfold namesNodup; infer_instance

/-- Total number of raw answers across all groups of a result. -/
def totalRawAnswers (l : List GroupedAnswer) : Nat :=
  (l.map (fun g => g.raw_answers.length)).sum

/-- Sum of the `count` fields of the groups named `nm`. -/
def countOf (l : List GroupedAnswer) (nm : String) : Int :=
  ((l.filter (fun g => g.canonical_name = nm)).map (fun g => g.count)).sum

/-- Whether some group of the list is named `nm`. -/
def hasGroup (l : List GroupedAnswer) (nm : String) : Prop :=
  ∃ g ∈ l, g.canonical_name = nm

instance (l : List GroupedAnswer) (nm : String) : Decidable (hasGroup l nm) := by
  unfold hasGroup; infer_instance

/-- Two answers lie in a common group of the list. -/
def inSameGroup (l : List GroupedAnswer) (x y : String) : Prop :=
  ∃ g ∈ l, x ∈ g.raw_answers ∧ y ∈ g.raw_answers

instance (l : List GroupedAnswer) (x y : String) : Decidable (inSameGroup l x y) := by
  unfold inSameGroup; infer_instance

/-! ### Helper lemmas -/



theorem perm_insertGroup (g : GroupedAnswer) (l : List GroupedAnswer) :
    List.Perm (insertGroup g l) (g :: l) := by
  induction l with
  | nil => exact List.Perm.refl _
  | cons h t ih =>
    simp only [insertGroup]
    split
    · exact List.Perm.refl _
    · exact (ih.cons h).trans (List.Perm.swap g h t)

theorem perm_sortGroups (l : List GroupedAnswer) : List.Perm (sortGroups l) l := by
  induction l with
  | nil => exact List.Perm.refl _
  | cons h t ih => exact (perm_insertGroup h (sortGroups t)).trans (ih.cons h)

theorem mem_insertGroup {x g : GroupedAnswer} {l : List GroupedAnswer} :
    x ∈ insertGroup g l ↔ x = g ∨ x ∈ l := by
  rw [(perm_insertGroup g l).mem_iff, List.mem_cons]

theorem sorted_insertGroup (g : GroupedAnswer) (l : List GroupedAnswer)
    (h : l.Pairwise (fun a b => b.count ≤ a.count)) :
    (insertGroup g l).Pairwise (fun a b => b.count ≤ a.count) := by
  induction l with
  | nil => simp [insertGroup]
  | cons hd t ih =>
    rw [List.pairwise_cons] at h
    obtain ⟨h1, h2⟩ := h
    simp only [insertGroup]
    split
    · next hle =>
      refine List.Pairwise.cons ?_ (List.Pairwise.cons h1 h2)
      intro b hb
      rcases List.mem_cons.mp hb with rfl | hb'
      · exact hle
      · exact le_trans (h1 b hb') hle
    · next hgt =>
      refine List.Pairwise.cons ?_ (ih h2)
      intro b hb
      rcases mem_insertGroup.mp hb with rfl | hb'
      · exact le_of_not_le hgt
      · exact h1 b hb'

theorem sorted_sortGroups (l : List GroupedAnswer) :
    (sortGroups l).Pairwise (fun a b => b.count ≤ a.count) := by
  induction l with
  | nil => simp [sortGroups]
  | cons h t ih => exact sorted_insertGroup h (sortGroups t) ih

theorem filter_insertGroup (g : GroupedAnswer) (l : List GroupedAnswer) (c : Int) :
    (insertGroup g l).filter (fun x => decide (x.count = c)) =
      if g.count = c then g :: l.filter (fun x => decide (x.count = c))
      else l.filter (fun x => decide (x.count = c)) := by
  induction l with
  | nil =>
    by_cases hc : g.count = c <;> simp [insertGroup, List.filter_cons, hc]
  | cons hd t ih =>
    simp only [insertGroup]
    split
    · next hle =>
      by_cases hc : g.count = c <;> simp [List.filter_cons, hc]
    · next hgt =>
      rw [List.filter_cons, ih]
      by_cases hc : g.count = c
      · have hne : ¬ hd.count = c := by
          intro hh
          exact hgt (le_of_eq (hh.trans hc.symm))
        simp [hc, hne, List.filter_cons]
      · by_cases hd2 : hd.count = c <;> simp [hc, hd2, List.filter_cons]

theorem filter_sortGroups (l : List GroupedAnswer) (c : Int) :
    (sortGroups l).filter (fun x => decide (x.count = c)) =
      l.filter (fun x => decide (x.count = c)) := by
  induction l with
  | nil => simp [sortGroups]
  | cons h t ih =>
    simp only [sortGroups]
    rw [filter_insertGroup, ih, List.filter_cons]
    by_cases hc : h.count = c <;> simp [hc]

theorem greedyAux_flatMap (score : String → String → Nat) (t : Nat) :
    ∀ fuel (l : List (String × String)), l.length ≤ fuel →
      List.Perm ((greedyAux score t fuel l).flatMap (fun g => g.raw_answers)) (l.map Prod.fst) := by
  intro fuel
  induction fuel with
  | zero =>
    intro l hl
    rw [List.length_eq_zero.mp (Nat.le_zero.mp hl)]
    exact List.Perm.refl _
  | succ n ih =>
    intro l hl
    cases l with
    | nil => exact List.Perm.refl _
    | cons q rest =>
      obtain ⟨o, p⟩ := q
      simp only [greedyAux, List.flatMap_cons, List.cons_append]
      have hrem : (rest.filter fun q => !decide (t ≤ score p q.2)).length ≤ n :=
        le_trans (List.length_filter_le _ _)
          (Nat.succ_le_succ_iff.mp (by simpa using hl))
      refine List.Perm.cons o ?_
      refine List.Perm.trans (List.Perm.append_left _ (ih _ hrem)) ?_
      rw [← List.map_append]
      exact (List.filter_append_perm _ rest).map Prod.fst

theorem greedyAux_count (score : String → String → Nat) (t : Nat) :
    ∀ fuel (l : List (String × String)) (g : GroupedAnswer),
      g ∈ greedyAux score t fuel l → g.count = (g.raw_answers.length : Int) := by
  intro fuel
  induction fuel with
  | zero =>
    intro l g hg
    cases l <;> simp [greedyAux] at hg
  | succ n ih =>
    intro l g hg
    cases l with
    | nil => simp [greedyAux] at hg
    | cons q rest =>
      obtain ⟨o, p⟩ := q
      simp only [greedyAux, List.mem_cons] at hg
      rcases hg with rfl | hg'
      · rfl
      · exact ih _ g hg'

theorem processedData_map_fst (wt : String → List String) (raws : List String) :
    (processedData wt raws).map Prod.fst = raws.filter validAnswer := by
  simp [processedData, List.map_map, Function.comp_def]



theorem setFirstName_spec (cur new : String) :
    ∀ l : List GroupedAnswer, (∃ g ∈ l, g.canonical_name = cur) →
      ∃ l₁ g l₂, l = l₁ ++ g :: l₂ ∧ (∀ g' ∈ l₁, g'.canonical_name ≠ cur) ∧
        g.canonical_name = cur ∧
        setFirstName cur new l = l₁ ++ { g with canonical_name := new } :: l₂ := by
  intro l
  induction l with
  | nil => intro hl; simp at hl
  | cons h t ih =>
    intro hl
    by_cases hh : h.canonical_name = cur
    · exact ⟨[], h, t, rfl, by simp, hh, by simp [setFirstName, hh]⟩
    · have ht : ∃ g ∈ t, g.canonical_name = cur := by
        rcases hl with ⟨g, hg, hgc⟩
        rcases List.mem_cons.mp hg with rfl | hgt
        · exact absurd hgc hh
        · exact ⟨g, hgt, hgc⟩
      obtain ⟨l₁, g, l₂, heq, hl₁, hgc, hset⟩ := ih ht
      refine ⟨h :: l₁, g, l₂, by rw [heq]; rfl, ?_, hgc, ?_⟩
      · intro g' hg'
        rcases List.mem_cons.mp hg' with rfl | h'
        · exact hh
        · exact hl₁ g' h'
      · simp [setFirstName, hh, hset]

theorem removeFromSource_spec (ans src : String) :
    ∀ l : List GroupedAnswer, (removeFromSource ans src l).2.2 = true →
      ∃ l₁ g l₂, l = l₁ ++ g :: l₂ ∧ (∀ g' ∈ l₁, g'.canonical_name ≠ src) ∧
        g.canonical_name = src ∧ ans ∈ g.raw_answers ∧
        removeFromSource ans src l =
          (l₁ ++ { g with raw_answers := g.raw_answers.erase ans, count := g.count - 1 } :: l₂,
           true, true) := by
  intro l
  induction l with
  | nil => intro h; simp [removeFromSource] at h
  | cons hd t ih =>
    intro h
    by_cases hh : hd.canonical_name = src
    · by_cases ha : ans ∈ hd.raw_answers
      · exact ⟨[], hd, t, rfl, by simp, hh, ha, by simp [removeFromSource, hh, ha]⟩
      · simp [removeFromSource, hh, ha] at h
    · have h' : (removeFromSource ans src t).2.2 = true := by
        simpa [removeFromSource, hh] using h
      obtain ⟨l₁, g, l₂, heq, hl₁, hgc, hans, hres⟩ := ih h'
      refine ⟨hd :: l₁, g, l₂, by rw [heq]; rfl, ?_, hgc, hans, ?_⟩
      · intro g' hg'
        rcases List.mem_cons.mp hg' with rfl | hgt
        · exact hh
        · exact hl₁ g' hgt
      · simp [removeFromSource, hh, hres]

theorem removeFromSource_not_found (ans src : String) :
    ∀ l : List GroupedAnswer, (∀ g ∈ l, g.canonical_name ≠ src) →
      removeFromSource ans src l = (l, false, false) := by
  intro l
  induction l with
  | nil => intro _; rfl
  | cons hd t ih =>
    intro hl
    have hhd : hd.canonical_name ≠ src := hl hd (List.mem_cons_self hd t)
    have ht := ih (fun g hg => hl g (List.mem_cons_of_mem hd hg))
    simp [removeFromSource, hhd, ht]

theorem removeFromSource_ans_missing (ans src : String) :
    ∀ (l₁ : List GroupedAnswer) (g : GroupedAnswer) (l₂ : List GroupedAnswer),
      (∀ g' ∈ l₁, g'.canonical_name ≠ src) → g.canonical_name = src →
      ans ∉ g.raw_answers →
      removeFromSource ans src (l₁ ++ g :: l₂) = (l₁ ++ g :: l₂, true, false) := by
  intro l₁
  induction l₁ with
  | nil => intro g l₂ _ hg ha; simp [removeFromSource, hg, ha]
  | cons hd t ih =>
    intro g l₂ hl hg ha
    have hhd : hd.canonical_name ≠ src := hl hd (List.mem_cons_self hd t)
    have ht := ih g l₂ (fun g' h' => hl g' (List.mem_cons_of_mem hd h')) hg ha
    simp [removeFromSource, hhd, ht]

theorem addToDest_spec (ans dst : String) :
    ∀ (l l' : List GroupedAnswer), addToDest ans dst l = some l' →
      ∃ l₁ g l₂, l = l₁ ++ g :: l₂ ∧ (∀ g' ∈ l₁, g'.canonical_name ≠ dst) ∧
        g.canonical_name = dst ∧
        l' = l₁ ++ { g with raw_answers := g.raw_answers ++ [ans], count := g.count + 1 } :: l₂ := by
  intro l
  induction l with
  | nil => intro l' h; simp [addToDest] at h
  | cons hd t ih =>
    intro l' h
    by_cases hh : hd.canonical_name = dst
    · simp only [addToDest, if_pos hh, Option.some.injEq] at h
      exact ⟨[], hd, t, rfl, by simp, hh, h.symm⟩
    · simp only [addToDest, if_neg hh, Option.map_eq_some'] at h
      obtain ⟨m, hm, rfl⟩ := h
      obtain ⟨l₁, g, l₂, heq, hl₁, hgc, hval⟩ := ih m hm
      refine ⟨hd :: l₁, g, l₂, by rw [heq]; rfl, ?_, hgc, by rw [hval]; rfl⟩
      intro g' hg'
      rcases List.mem_cons.mp hg' with rfl | h'
      · exact hh
      · exact hl₁ g' h'

theorem addToDest_none (ans dst : String) :
    ∀ l : List GroupedAnswer, (∀ g ∈ l, g.canonical_name ≠ dst) →
      addToDest ans dst l = none := by
  intro l
  induction l with
  | nil => intro _; rfl
  | cons hd t ih =>
    intro hl
    have hhd : hd.canonical_name ≠ dst := hl hd (List.mem_cons_self hd t)
    have ht := ih (fun g hg => hl g (List.mem_cons_of_mem hd hg))
    simp [addToDest, hhd, ht]

theorem cleanupFilter_models (src : String) :
    ∀ l : List GroupedAnswer,
      cleanupFilter src (l.map MoveEntry.model) =
        .ok (l.filter (fun g => decide (¬(g.canonical_name = src ∧ g.count = 0)))) := by
  intro l
  induction l with
  | nil => rfl
  | cons g t ih =>
    simp only [List.map_cons, cleanupFilter, ih, List.filter_cons]
    by_cases hc : g.canonical_name = src ∧ g.count = 0
    · simp [hc]
    · simp [hc]

theorem cleanupFilter_dict (src : String) (d : GroupedAnswer) :
    ∀ l : List GroupedAnswer,
      cleanupFilter src (l.map MoveEntry.model ++ [MoveEntry.dict d]) =
        .error .attributeError := by
  intro l
  induction l with
  | nil => rfl
  | cons g t ih => simp [cleanupFilter, ih]

theorem countOf_append (l₁ l₂ : List GroupedAnswer) (nm : String) :
    countOf (l₁ ++ l₂) nm = countOf l₁ nm + countOf l₂ nm := by
  simp [countOf, List.filter_append]

theorem countOf_cons (g : GroupedAnswer) (l : List GroupedAnswer) (nm : String) :
    countOf (g :: l) nm = (if g.canonical_name = nm then g.count else 0) + countOf l nm := by
  simp only [countOf, List.filter_cons]
  by_cases h : g.canonical_name = nm <;> simp [h]

theorem totalRawAnswers_append (l₁ l₂ : List GroupedAnswer) :
    totalRawAnswers (l₁ ++ l₂) = totalRawAnswers l₁ + totalRawAnswers l₂ := by
  simp [totalRawAnswers]

theorem totalRawAnswers_cons (g : GroupedAnswer) (l : List GroupedAnswer) :
    totalRawAnswers (g :: l) = g.raw_answers.length + totalRawAnswers l := by
  simp [totalRawAnswers]

theorem countOf_filter_keep (src nm : String) :
    ∀ l : List GroupedAnswer,
      countOf (l.filter (fun g => decide (¬(g.canonical_name = src ∧ g.count = 0)))) nm =
        countOf l nm := by
  intro l
  induction l with
  | nil => rfl
  | cons g t ih =>
    rw [List.filter_cons]
    by_cases hc : g.canonical_name = src ∧ g.count = 0
    · rw [if_neg (by simp [hc]), ih, countOf_cons]
      by_cases hn : g.canonical_name = nm
      · rw [if_pos hn, hc.2]; ring
      · rw [if_neg hn]; ring
    · rw [if_pos (by simp [hc]), countOf_cons, countOf_cons, ih]

theorem countOf_nonneg (nm : String) :
    ∀ l : List GroupedAnswer, countInvariant l → 0 ≤ countOf l nm := by
  intro l
  induction l with
  | nil => intro _; simp [countOf]
  | cons g t ih =>
    intro hinv
    have hg := hinv g (List.mem_cons_self g t)
    have ht := ih (fun x hx => hinv x (List.mem_cons_of_mem g hx))
    rw [countOf_cons]
    by_cases hn : g.canonical_name = nm
    · rw [if_pos hn, hg]; positivity
    · rw [if_neg hn]; simpa using ht

theorem totalRawAnswers_filter_keep (src : String) :
    ∀ l : List GroupedAnswer, countInvariant l →
      totalRawAnswers (l.filter (fun g => decide (¬(g.canonical_name = src ∧ g.count = 0)))) =
        totalRawAnswers l := by
  intro l
  induction l with
  | nil => intro _; rfl
  | cons g t ih =>
    intro hinv
    have hg := hinv g (List.mem_cons_self g t)
    have ht := ih (fun x hx => hinv x (List.mem_cons_of_mem g hx))
    rw [List.filter_cons]
    by_cases hc : g.canonical_name = src ∧ g.count = 0
    · have hlen : g.raw_answers.length = 0 := by
        have := hc.2; rw [this] at hg; exact_mod_cast hg.symm
      rw [if_neg (by simp [hc]), ht, totalRawAnswers_cons, hlen]
      omega
    · rw [if_pos (by simp [hc]), totalRawAnswers_cons, totalRawAnswers_cons, ht]

theorem hasGroup_filter_keep (src : String) :
    ∀ l : List GroupedAnswer, countInvariant l →
      (hasGroup (l.filter (fun g => decide (¬(g.canonical_name = src ∧ g.count = 0)))) src ↔
        countOf l src ≠ 0) := by
  intro l
  induction l with
  | nil => intro _; simp [hasGroup, countOf]
  | cons g t ih =>
    intro hinv
    have hg := hinv g (List.mem_cons_self g t)
    have ht := ih (fun x hx => hinv x (List.mem_cons_of_mem g hx))
    have htpos := countOf_nonneg src t (fun x hx => hinv x (List.mem_cons_of_mem g hx))
    simp only [hasGroup] at ht ⊢
    rw [List.filter_cons, countOf_cons]
    by_cases hn : g.canonical_name = src
    · by_cases hz : g.count = 0
      · rw [if_neg (by simp [hn, hz]), if_pos hn, hz, ht]
        omega
      · have hpos : 0 < g.count := by
          refine lt_of_le_of_ne ?_ (Ne.symm hz)
          rw [hg]
          positivity
        rw [if_pos (by simp [hn, hz]), if_pos hn]
        constructor
        · intro _
          omega
        · intro _
          exact ⟨g, List.mem_cons_self _ _, hn⟩
    · rw [if_pos (by simp [hn]), if_neg hn, zero_add, ← ht]
      constructor
      · rintro ⟨x, hx, hxs⟩
        rcases List.mem_cons.mp hx with rfl | hx'
        · exact absurd hxs hn
        · exact ⟨x, hx', hxs⟩
      · rintro ⟨x, hx, hxs⟩
        exact ⟨x, List.mem_cons_of_mem g hx, hxs⟩



theorem move_success_spec (st : SurveyGroupedResults) (req : MoveAnswerRequest) (now : Nat)
    (st' : SurveyGroupedResults)
    (hsucc : (move_answer_between_groups st req now).1 = .ok (some st')) :
    ∃ L2,
      (removeFromSource req.raw_answer_text req.source_group_canonical_name
        st.grouped_answers).2.2 = true ∧
      addToDest req.raw_answer_text req.destination_group_canonical_name
        (removeFromSource req.raw_answer_text req.source_group_canonical_name
          st.grouped_answers).1 = some L2 ∧
      st' = { st with
        grouped_answers := L2.filter
          (fun g => decide (¬(g.canonical_name = req.source_group_canonical_name ∧ g.count = 0))),
        processing_time_utc := now } := by
  simp only [move_answer_between_groups] at hsucc
  by_cases hflag : ((removeFromSource req.raw_answer_text req.source_group_canonical_name
      st.grouped_answers).2.1 &&
      (removeFromSource req.raw_answer_text req.source_group_canonical_name
        st.grouped_answers).2.2) = true
  · rw [if_pos hflag] at hsucc
    obtain ⟨h1, h2⟩ := Bool.and_eq_true_iff.mp hflag
    rcases hadd : addToDest req.raw_answer_text req.destination_group_canonical_name
        (removeFromSource req.raw_answer_text req.source_group_canonical_name
          st.grouped_answers).1 with _ | l2
    · rw [hadd] at hsucc
      rw [cleanupFilter_dict] at hsucc
      simp at hsucc
    · rw [hadd] at hsucc
      rw [cleanupFilter_models] at hsucc
      simp only [Except.ok.injEq, Option.some.injEq] at hsucc
      exact ⟨l2, h2, by first | exact hadd | rfl, hsucc.symm⟩
  · rw [if_neg hflag] at hsucc
    simp at hsucc



theorem countInvariant_filter (p : GroupedAnswer → Bool) (l : List GroupedAnswer)
    (h : countInvariant l) : countInvariant (l.filter p) :=
  fun g hg => h g (List.mem_filter.mp hg).1

theorem move_invariants (st : SurveyGroupedResults) (req : MoveAnswerRequest) (now : Nat)
    (st' : SurveyGroupedResults)
    (hinv : countInvariant st.grouped_answers)
    (hsucc : (move_answer_between_groups st req now).1 = .ok (some st')) :
    countInvariant st'.grouped_answers ∧
    (req.destination_group_canonical_name ≠ req.source_group_canonical_name →
      countOf st'.grouped_answers req.source_group_canonical_name =
        countOf st.grouped_answers req.source_group_canonical_name - 1 ∧
      (hasGroup st'.grouped_answers req.source_group_canonical_name ↔
        countOf st.grouped_answers req.source_group_canonical_name - 1 ≠ 0) ∧
      countOf st'.grouped_answers req.destination_group_canonical_name =
        countOf st.grouped_answers req.destination_group_canonical_name + 1) ∧
    totalRawAnswers st'.grouped_answers = totalRawAnswers st.grouped_answers := by
  obtain ⟨L2, h22, hadd, hst'⟩ := move_success_spec st req now st' hsucc
  obtain ⟨l₁, g, l₂, heq, hl₁, hgc, hans, hrm⟩ :=
    removeFromSource_spec req.raw_answer_text req.source_group_canonical_name
      st.grouped_answers h22
  have hL1 : (removeFromSource req.raw_answer_text req.source_group_canonical_name
      st.grouped_answers).1 = l₁ ++
        { g with raw_answers := g.raw_answers.erase req.raw_answer_text,
                 count := g.count - 1 } :: l₂ := by rw [hrm]
  rw [hL1] at hadd
  obtain ⟨m₁, d, m₂, heq2, hm₁, hdc, hL2⟩ := addToDest_spec _ _ _ L2 hadd
  have hglen : 0 < g.raw_answers.length := List.length_pos_of_mem hans
  have herase : (g.raw_answers.erase req.raw_answer_text).length =
      g.raw_answers.length - 1 := List.length_erase_of_mem hans
  have hginv : g.count = (g.raw_answers.length : Int) := by
    rw [heq] at hinv
    exact hinv g (by simp)
  -- invariant of the intermediate list after the source update
  have hinvL1 : countInvariant (l₁ ++
      { g with raw_answers := g.raw_answers.erase req.raw_answer_text,
               count := g.count - 1 } :: l₂) := by
    rw [heq] at hinv
    intro x hx
    rcases List.mem_append.mp hx with hx1 | hx2
    · exact hinv x (List.mem_append.mpr (Or.inl hx1))
    · rcases List.mem_cons.mp hx2 with rfl | hx3
      · show g.count - 1 = _
        simp only [herase, hginv]
        omega
      · exact hinv x (List.mem_append.mpr (Or.inr (List.mem_cons_of_mem _ hx3)))
  -- invariant of the list after the destination update
  have hdinv : d.count = (d.raw_answers.length : Int) := by
    rw [heq2] at hinvL1
    exact hinvL1 d (List.mem_append.mpr (Or.inr (List.mem_cons_self _ _)))
  have hinvL2 : countInvariant L2 := by
    rw [hL2]
    intro x hx
    rcases List.mem_append.mp hx with hx1 | hx2
    · exact (heq2 ▸ hinvL1) x (List.mem_append.mpr (Or.inl hx1))
    · rcases List.mem_cons.mp hx2 with rfl | hx3
      · show d.count + 1 = _
        simp only [List.length_append, List.length_cons, List.length_nil, hdinv]
        push_cast
        omega
      · exact (heq2 ▸ hinvL1) x (List.mem_append.mpr (Or.inr (List.mem_cons_of_mem _ hx3)))
  have hinvSt' : countInvariant st'.grouped_answers := by
    rw [hst']
    exact countInvariant_filter _ _ hinvL2
  refine ⟨hinvSt', ?_, ?_⟩
  · intro hne
    -- countOf bookkeeping
    have e1 : countOf st.grouped_answers req.source_group_canonical_name =
        countOf l₁ req.source_group_canonical_name + g.count +
        countOf l₂ req.source_group_canonical_name := by
      rw [heq, countOf_append, countOf_cons, if_pos hgc]
      ring
    have hgdst : g.canonical_name ≠ req.destination_group_canonical_name := by
      rw [hgc]
      exact fun h => hne h.symm
    have e2 : countOf st.grouped_answers req.destination_group_canonical_name =
        countOf l₁ req.destination_group_canonical_name +
        countOf l₂ req.destination_group_canonical_name := by
      rw [heq, countOf_append, countOf_cons, if_neg hgdst]
      ring
    -- the two decompositions of the intermediate list
    have e3 : countOf (l₁ ++
        { g with raw_answers := g.raw_answers.erase req.raw_answer_text,
                 count := g.count - 1 } :: l₂) req.source_group_canonical_name =
        countOf l₁ req.source_group_canonical_name + (g.count - 1) +
        countOf l₂ req.source_group_canonical_name := by
      rw [countOf_append, countOf_cons]
      rw [if_pos hgc]
      ring
    have e4 : countOf (l₁ ++
        { g with raw_answers := g.raw_answers.erase req.raw_answer_text,
                 count := g.count - 1 } :: l₂) req.destination_group_canonical_name =
        countOf l₁ req.destination_group_canonical_name +
        countOf l₂ req.destination_group_canonical_name := by
      rw [countOf_append, countOf_cons, if_neg hgdst]
      ring
    have e5 : countOf L2 req.source_group_canonical_name =
        countOf (l₁ ++
          { g with raw_answers := g.raw_answers.erase req.raw_answer_text,
                   count := g.count - 1 } :: l₂) req.source_group_canonical_name := by
      have hddst : d.canonical_name ≠ req.source_group_canonical_name := by
        rw [hdc]
        exact hne
      rw [hL2, countOf_append, countOf_cons, if_neg hddst, heq2, countOf_append,
        countOf_cons, if_neg hddst]
    have e6 : countOf L2 req.destination_group_canonical_name =
        countOf (l₁ ++
          { g with raw_answers := g.raw_answers.erase req.raw_answer_text,
                   count := g.count - 1 } :: l₂) req.destination_group_canonical_name + 1 := by
      rw [hL2, countOf_append, countOf_cons, if_pos hdc, heq2, countOf_append,
        countOf_cons, if_pos hdc]
      ring
    have e7 : countOf st'.grouped_answers req.source_group_canonical_name =
        countOf L2 req.source_group_canonical_name := by
      rw [hst']
      exact countOf_filter_keep _ _ L2
    have e8 : countOf st'.grouped_answers req.destination_group_canonical_name =
        countOf L2 req.destination_group_canonical_name := by
      rw [hst']
      exact countOf_filter_keep _ _ L2
    refine ⟨by omega, ?_, by omega⟩
    have e9 : hasGroup st'.grouped_answers req.source_group_canonical_name ↔
        countOf L2 req.source_group_canonical_name ≠ 0 := by
      rw [hst']
      exact hasGroup_filter_keep _ L2 hinvL2
    rw [e9]
    constructor
    · intro h
      omega
    · intro h
      omega
  · -- totals
    have t1 : totalRawAnswers st.grouped_answers =
        totalRawAnswers l₁ + g.raw_answers.length + totalRawAnswers l₂ := by
      rw [heq, totalRawAnswers_append, totalRawAnswers_cons]
      ring
    have t2 : totalRawAnswers (l₁ ++
        { g with raw_answers := g.raw_answers.erase req.raw_answer_text,
                 count := g.count - 1 } :: l₂) =
        totalRawAnswers l₁ + (g.raw_answers.length - 1) + totalRawAnswers l₂ := by
      rw [totalRawAnswers_append, totalRawAnswers_cons]
      show totalRawAnswers l₁ + ((g.raw_answers.erase req.raw_answer_text).length +
        totalRawAnswers l₂) = _
      rw [herase]
      ring
    have t3 : totalRawAnswers L2 = totalRawAnswers (l₁ ++
        { g with raw_answers := g.raw_answers.erase req.raw_answer_text,
                 count := g.count - 1 } :: l₂) + 1 := by
      rw [hL2, heq2, totalRawAnswers_append, totalRawAnswers_cons,
        totalRawAnswers_append, totalRawAnswers_cons]
      simp only [List.length_append, List.length_cons, List.length_nil]
      ring
    have t4 : totalRawAnswers st'.grouped_answers = totalRawAnswers L2 := by
      rw [hst']
      exact totalRawAnswers_filter_keep _ L2 hinvL2
    omega



theorem countInvariant_setFirstName (cur new : String) :
    ∀ l : List GroupedAnswer, countInvariant l → countInvariant (setFirstName cur new l) := by
  intro l
  induction l with
  | nil => intro h; simpa [setFirstName] using h
  | cons g t ih =>
    intro h x hx
    have hg := h g (List.mem_cons_self g t)
    have ht := ih (fun y hy => h y (List.mem_cons_of_mem g hy))
    simp only [setFirstName] at hx
    by_cases hgc : g.canonical_name = cur
    · rw [if_pos hgc] at hx
      rcases List.mem_cons.mp hx with rfl | hx'
      · exact hg
      · exact h x (List.mem_cons_of_mem g hx')
    · rw [if_neg hgc] at hx
      rcases List.mem_cons.mp hx with rfl | hx'
      · exact hg
      · exact ht x hx'

theorem group_responses_countInvariant (wt : String → List String)
    (WRatio : String → String → Nat) (raws : List String) (t : Nat) :
    countInvariant (group_responses wt WRatio raws t) := by
  intro g hg
  unfold group_responses at hg
  by_cases h0 : raws = []
  · rw [if_pos h0] at hg
    simp at hg
  · rw [if_neg h0] at hg
    by_cases hpd : processedData wt raws = []
    · rw [if_pos hpd] at hg
      simp at hg
    · rw [if_neg hpd] at hg
      exact greedyAux_count _ _ _ _ g ((perm_sortGroups _).mem_iff.mp hg)

/-- Claim C7: for every input sequence (and any tokenizer and similarity
scorer), the multiset union of `raw_answers` across all groups produced by
`group_responses` equals the multiset of valid (non-empty, non-whitespace)
input raw answers — each valid raw answer instance lands in exactly one
group and no discarded entry appears anywhere. -/
theorem c7_partition_invariant (wt : String → List String)
    (WRatio : String → String → Nat) (raws : List String) (t : Nat) :
    List.Perm ((group_responses wt WRatio raws t).flatMap (fun g => g.raw_answers))
      (raws.filter validAnswer) := by
  unfold group_responses
  by_cases h0 : raws = []
  · subst h0
    simp
  · rw [if_neg h0]
    by_cases hpd : processedData wt raws = []
    · rw [if_pos hpd]
      have hf : raws.filter validAnswer = [] := by
        have := processedData_map_fst wt raws
        rw [hpd] at this
        exact this.symm
      rw [hf]
      simp
    · rw [if_neg hpd]
      refine List.Perm.trans (List.Perm.flatMap_right _ (perm_sortGroups _)) ?_
      refine List.Perm.trans (greedyAux_flatMap _ _ _ _ (le_refl _)) ?_
      rw [processedData_map_fst]

/-- Claim C10: the grouped answers produced by a clustering run are sorted
by `count` descending, and for every count value the groups having that
count appear exactly as in clusterer discovery order (stability of the
sort). -/
theorem c10_sorted_stable (wt : String → List String)
    (WRatio : String → String → Nat) (raws : List String) (t : Nat) :
    (group_responses wt WRatio raws t).Pairwise (fun a b => b.count ≤ a.count) ∧
    ∀ c : Int, (group_responses wt WRatio raws t).filter (fun g => decide (g.count = c)) =
      (discovered_groups wt WRatio raws t).filter (fun g => decide (g.count = c)) := by
  unfold group_responses discovered_groups
  by_cases h0 : raws = []
  · subst h0
    refine ⟨by simp, fun c => ?_⟩
    simp [processedData, greedy, greedyAux]
  · rw [if_neg h0]
    by_cases hpd : processedData wt raws = []
    · rw [if_pos hpd]
      refine ⟨by simp, fun c => ?_⟩
      rw [hpd]
      simp [greedy, greedyAux]
    · rw [if_neg hpd]
      exact ⟨sorted_sortGroups _, fun c => filter_sortGroups _ c⟩

/-- Claim C8: `count` equals the length of `raw_answers` for every group
of every result produced or mutated by the engine: after a clustering run,
after a successful rename, and after a successful move. -/
theorem c8_count_length_invariant :
    (∀ (wt : String → List String) (WRatio : String → String → Nat)
        (raws : List String) (t : Nat),
      countInvariant (group_responses wt WRatio raws t)) ∧
    (∀ (st : SurveyGroupedResults) (cur new : String) (now : Nat)
        (st' : SurveyGroupedResults), countInvariant st.grouped_answers →
      (update_group_canonical_name st cur new now).1 = some st' →
      countInvariant st'.grouped_answers) ∧
    (∀ (st : SurveyGroupedResults) (req : MoveAnswerRequest) (now : Nat)
        (st' : SurveyGroupedResults), countInvariant st.grouped_answers →
      (move_answer_between_groups st req now).1 = .ok (some st') →
      countInvariant st'.grouped_answers) := by
  refine ⟨group_responses_countInvariant, ?_, ?_⟩
  · intro st cur new now st' hinv h
    simp only [update_group_canonical_name] at h
    by_cases hex : ∃ g ∈ st.grouped_answers, g.canonical_name = cur
    · rw [if_pos hex] at h
      simp only [Option.some.injEq] at h
      rw [← h]
      exact countInvariant_setFirstName cur new _ hinv
    · rw [if_neg hex] at h
      simp at h
  · intro st req now st' hinv h
    exact (move_invariants st req now st' hinv h).1

/-- Claim C2: when the move request fails validation — no group is named
`sourceName`, or the answer text is absent from the first group named
`sourceName` — the service returns the not-found outcome `none` and the
persisted document is left exactly as it was. -/
theorem c2_notfound_leaves_result_unchanged (st : SurveyGroupedResults)
    (req : MoveAnswerRequest) (now : Nat)
    (h : (∀ g ∈ st.grouped_answers,
        g.canonical_name ≠ req.source_group_canonical_name) ∨
      (∃ l₁ g l₂, st.grouped_answers = l₁ ++ g :: l₂ ∧
        (∀ g' ∈ l₁, g'.canonical_name ≠ req.source_group_canonical_name) ∧
        g.canonical_name = req.source_group_canonical_name ∧
        req.raw_answer_text ∉ g.raw_answers)) :
    move_answer_between_groups st req now = (.ok none, st) := by
  simp only [move_answer_between_groups]
  rcases h with h | ⟨l₁, g, l₂, heq, hl₁, hgc, hna⟩
  · rw [removeFromSource_not_found _ _ _ h]
    simp
  · rw [heq, removeFromSource_ans_missing _ _ l₁ g l₂ hl₁ hgc hna]
    simp

/-- Witness for C2 at a concrete input: moving from a group name that does
not exist returns `none` and leaves the stored result untouched. -/
theorem c2_witness :
    move_answer_between_groups ⟨0, "completed", [⟨"a", 1, ["x"]⟩], []⟩
      ⟨"x", "zzz", "b"⟩ 5 = (.ok none, ⟨0, "completed", [⟨"a", 1, ["x"]⟩], []⟩) :=
  c2_notfound_leaves_result_unchanged _ _ _ (Or.inl (by decide))



/-- Witness for C8 at a concrete input: the invariant holds after a
successful concrete move. -/
theorem c8_witness :
    countInvariant [⟨"p", 1, ["u"]⟩, ⟨"q", 2, ["w", "v"]⟩] :=
  c8_count_length_invariant.2.2 ⟨0, "completed", [⟨"p", 2, ["u", "v"]⟩, ⟨"q", 1, ["w"]⟩], []⟩
    ⟨"v", "p", "q"⟩ 4 ⟨4, "completed", [⟨"p", 1, ["u"]⟩, ⟨"q", 2, ["w", "v"]⟩], []⟩
    (by decide) (by decide)

/-- Claim C6: if no group is named `currentName` the rename returns the
not-found outcome and changes nothing; otherwise it returns the updated
document in which exactly the first group named `currentName` has its
`canonical_name` replaced by `newName` — its `count` and `raw_answers`,
every other group, and the `status` and `errors` fields are untouched, and
only `processing_time_utc` is refreshed. -/
theorem c6_rename_frame (st : SurveyGroupedResults) (cur new : String) (now : Nat) :
    ((∀ g ∈ st.grouped_answers, g.canonical_name ≠ cur) →
      update_group_canonical_name st cur new now = (none, st)) ∧
    ((∃ g ∈ st.grouped_answers, g.canonical_name = cur) →
      ∃ st' l₁ g l₂, update_group_canonical_name st cur new now = (some st', st') ∧
        st.grouped_answers = l₁ ++ g :: l₂ ∧
        (∀ g' ∈ l₁, g'.canonical_name ≠ cur) ∧ g.canonical_name = cur ∧
        st'.grouped_answers = l₁ ++ { g with canonical_name := new } :: l₂ ∧
        st'.processing_time_utc = now ∧ st'.status = st.status ∧
        st'.errors = st.errors) := by
  constructor
  · intro h
    unfold update_group_canonical_name
    rw [if_neg ?_]
    rintro ⟨g, hg, hgc⟩
    exact h g hg hgc
  · intro h
    unfold update_group_canonical_name
    rw [if_pos h]
    obtain ⟨l₁, g, l₂, heq, hl₁, hgc, hset⟩ := setFirstName_spec cur new st.grouped_answers h
    exact ⟨_, l₁, g, l₂, rfl, heq, hl₁, hgc, hset, rfl, rfl, rfl⟩

/-- Witness for C6 at a concrete input: renaming "dog" to "Dog". -/
theorem c6_witness :
    ∃ st' l₁ g l₂,
      update_group_canonical_name ⟨0, "completed", [⟨"dog", 2, ["dog", "Dog!"]⟩], []⟩
        "dog" "Dog" 3 = (some st', st') ∧
      ([⟨"dog", 2, ["dog", "Dog!"]⟩] : List GroupedAnswer) = l₁ ++ g :: l₂ ∧
      (∀ g' ∈ l₁, g'.canonical_name ≠ "dog") ∧ g.canonical_name = "dog" ∧
      st'.grouped_answers = l₁ ++ { g with canonical_name := "Dog" } :: l₂ ∧
      st'.processing_time_utc = 3 ∧ st'.status = "completed" ∧ st'.errors = [] :=
  (c6_rename_frame ⟨0, "completed", [⟨"dog", 2, ["dog", "Dog!"]⟩], []⟩ "dog" "Dog" 3).2
    (by decide)

/-- Counterexample to claim C5 as stated: the code path behind rename does
no conflict check, so renaming "a" to "b" in a result that already has a
distinct group named "b" yields two distinct groups sharing a canonical
name. -/
theorem c5_counterexample :
    namesNodup [⟨"a", 1, ["x"]⟩, ⟨"b", 1, ["y"]⟩] ∧
    (update_group_canonical_name ⟨0, "completed", [⟨"a", 1, ["x"]⟩, ⟨"b", 1, ["y"]⟩], []⟩
      "a" "b" 1).1 = some ⟨1, "completed", [⟨"b", 1, ["x"]⟩, ⟨"b", 1, ["y"]⟩], []⟩ ∧
    ¬ namesNodup [⟨"b", 1, ["x"]⟩, ⟨"b", 1, ["y"]⟩] := by
  decide

/-- Claim C5 as amended: rename preserves pairwise-distinct canonical
names provided the new name is the old one or is not already used by any
group of the result. -/
theorem c5_rename_preserves_unique_names (st : SurveyGroupedResults)
    (cur new : String) (now : Nat) (st' : SurveyGroupedResults)
    (hnd : namesNodup st.grouped_answers)
    (hnew : new = cur ∨ ∀ g ∈ st.grouped_answers, g.canonical_name ≠ new)
    (h : (update_group_canonical_name st cur new now).1 = some st') :
    namesNodup st'.grouped_answers := by
  simp only [update_group_canonical_name] at h
  by_cases hex : ∃ g ∈ st.grouped_answers, g.canonical_name = cur
  · rw [if_pos hex] at h
    simp only [Option.some.injEq] at h
    obtain ⟨l₁, g, l₂, heq, hl₁, hgc, hset⟩ := setFirstName_spec cur new st.grouped_answers hex
    rw [← h]
    show namesNodup (setFirstName cur new st.grouped_answers)
    rw [hset]
    rcases hnew with rfl | hnew
    · have : ({ g with canonical_name := new } : GroupedAnswer) = g := by
        have : g.canonical_name = new := hgc
        cases g
        simp_all
      rw [this, ← heq]
      exact hnd
    · rw [heq] at hnd hnew
      simp only [namesNodup, List.map_append, List.map_cons] at hnd ⊢
      rw [List.nodup_middle, List.nodup_cons] at hnd ⊢
      refine ⟨?_, hnd.2⟩
      intro hmem
      rw [← List.map_append] at hmem
      obtain ⟨g', hg', hg'c⟩ := List.mem_map.mp hmem
      rcases List.mem_append.mp hg' with h1 | h2
      · exact hnew g' (List.mem_append.mpr (Or.inl h1)) hg'c
      · exact hnew g' (List.mem_append.mpr (Or.inr (List.mem_cons_of_mem g h2))) hg'c
  · rw [if_neg hex] at h
    simp at h

/-- Witness for the amended C5 at a concrete input: renaming to a fresh
name keeps canonical names pairwise distinct. -/
theorem c5_witness : namesNodup [⟨"c", 1, ["x"]⟩, ⟨"b", 1, ["y"]⟩] :=
  c5_rename_preserves_unique_names
    ⟨0, "completed", [⟨"a", 1, ["x"]⟩, ⟨"b", 1, ["y"]⟩], []⟩ "a" "c" 1
    ⟨1, "completed", [⟨"c", 1, ["x"]⟩, ⟨"b", 1, ["y"]⟩], []⟩
    (by decide) (Or.inr (by decide)) (by decide)


/-- Claim C1 evidence: moving an answer to a destination name that does
not yet exist raises an unhandled `AttributeError` instead of creating the
group — the newly built destination is appended as a plain dict, and the
cleanup list comprehension then reads `.canonical_name` on it.  The
preconditions of the claim hold (source exists and holds the answer, no
group is named "dog"), yet the operation escapes as a fault and nothing is
persisted. -/
theorem c1_move_to_new_destination_attribute_error :
    (∃ g ∈ ([⟨"cat", 1, ["cat"]⟩] : List GroupedAnswer),
      g.canonical_name = "cat" ∧ "cat" ∈ g.raw_answers) ∧
    (∀ g ∈ ([⟨"cat", 1, ["cat"]⟩] : List GroupedAnswer), g.canonical_name ≠ "dog") ∧
    move_answer_between_groups ⟨0, "completed", [⟨"cat", 1, ["cat"]⟩], []⟩
      ⟨"cat", "cat", "dog"⟩ 7
      = (.error .attributeError, ⟨0, "completed", [⟨"cat", 1, ["cat"]⟩], []⟩) := by
  decide

/-- Counterexample to claim C3 as stated: when the destination name equals
the source name the move succeeds (remove then re-append inside the same
group) but the source group's count does not decrease — it is unchanged. -/
theorem c3_counterexample :
    (move_answer_between_groups ⟨0, "completed", [⟨"a", 2, ["x", "y"]⟩], []⟩
      ⟨"x", "a", "a"⟩ 1).1
      = .ok (some ⟨1, "completed", [⟨"a", 2, ["y", "x"]⟩], []⟩) ∧
    countOf [⟨"a", 2, ["y", "x"]⟩] "a" = countOf [⟨"a", 2, ["x", "y"]⟩] "a" := by
  decide

/-- Claim C3 as amended: for a well-formed result (`count` equals the raw
answer count in every group) and a destination distinct from the source,
a successful move decrements the total count recorded under the source
name by exactly one, keeps a group named `sourceName` exactly when that
decremented count is nonzero, increments the count under the destination
name by exactly one, and leaves the total number of raw answers over all
groups unchanged. -/
theorem c3_move_counts (st : SurveyGroupedResults) (req : MoveAnswerRequest)
    (now : Nat) (st' : SurveyGroupedResults)
    (hinv : countInvariant st.grouped_answers)
    (hne : req.destination_group_canonical_name ≠ req.source_group_canonical_name)
    (hsucc : (move_answer_between_groups st req now).1 = .ok (some st')) :
    countOf st'.grouped_answers req.source_group_canonical_name =
      countOf st.grouped_answers req.source_group_canonical_name - 1 ∧
    (hasGroup st'.grouped_answers req.source_group_canonical_name ↔
      countOf st.grouped_answers req.source_group_canonical_name - 1 ≠ 0) ∧
    countOf st'.grouped_answers req.destination_group_canonical_name =
      countOf st.grouped_answers req.destination_group_canonical_name + 1 ∧
    totalRawAnswers st'.grouped_answers = totalRawAnswers st.grouped_answers := by
  obtain ⟨-, hc, ht⟩ := move_invariants st req now st' hinv hsucc
  obtain ⟨h1, h2, h3⟩ := hc hne
  exact ⟨h1, h2, h3, ht⟩

/-- Witness for the amended C3 at a concrete input: moving "v" from group
"p" (count 2) to existing group "q" (count 1). -/
theorem c3_witness :
    countOf [⟨"p", 1, ["u"]⟩, ⟨"q", 2, ["w", "v"]⟩] "p" =
      countOf [⟨"p", 2, ["u", "v"]⟩, ⟨"q", 1, ["w"]⟩] "p" - 1 ∧
    (hasGroup [⟨"p", 1, ["u"]⟩, ⟨"q", 2, ["w", "v"]⟩] "p" ↔
      countOf [⟨"p", 2, ["u", "v"]⟩, ⟨"q", 1, ["w"]⟩] "p" - 1 ≠ 0) ∧
    countOf [⟨"p", 1, ["u"]⟩, ⟨"q", 2, ["w", "v"]⟩] "q" =
      countOf [⟨"p", 2, ["u", "v"]⟩, ⟨"q", 1, ["w"]⟩] "q" + 1 ∧
    totalRawAnswers [⟨"p", 1, ["u"]⟩, ⟨"q", 2, ["w", "v"]⟩] =
      totalRawAnswers [⟨"p", 2, ["u", "v"]⟩, ⟨"q", 1, ["w"]⟩] :=
  c3_move_counts ⟨0, "completed", [⟨"p", 2, ["u", "v"]⟩, ⟨"q", 1, ["w"]⟩], []⟩
    ⟨"v", "p", "q"⟩ 4 ⟨4, "completed", [⟨"p", 1, ["u"]⟩, ⟨"q", 2, ["w", "v"]⟩], []⟩
    (by decide) (by decide) (by decide)

/-- Counterexample to claim C4 as stated: a whitespace-only string is a
text entry, so the task takes the processing branch; the Clusterer then
discards it, and the run ends with status "completed" and an empty error
list instead of "completed_no_data" with an explanatory message, even
though the filtered input is empty. -/
theorem c4_counterexample :
    (([PyVal.str " "].filterMap answerTextOf).filter validAnswer = []) ∧
    process_survey_responses_task wt_spec WRatio_spec [PyVal.str " "] 0
      = ⟨0, "completed", [], []⟩ := by
  decide

/-- Claim C4 as amended: the `completed_no_data` outcome with the
explanatory error is produced exactly when the input contains no string
entries at all; when string entries exist but every one of them is
discarded by the validity filter, the run instead completes with status
"completed", empty `grouped_answers`, and an empty `errors` list. -/
theorem c4_no_data_status (wt : String → List String)
    (WRatio : String → String → Nat) (docs : List PyVal) (now : Nat) :
    (docs.filterMap answerTextOf = [] →
      process_survey_responses_task wt WRatio docs now =
        ⟨now, "completed_no_data", [], ["No valid answer texts found to process."]⟩) ∧
    (docs.filterMap answerTextOf ≠ [] →
      (docs.filterMap answerTextOf).filter validAnswer = [] →
      process_survey_responses_task wt WRatio docs now = ⟨now, "completed", [], []⟩) := by
  constructor
  · intro h
    simp [process_survey_responses_task, h]
  · intro h hf
    simp only [process_survey_responses_task]
    rw [if_neg h]
    have hg : group_responses wt WRatio (docs.filterMap answerTextOf) 85 = [] := by
      unfold group_responses
      rw [if_neg h]
      have hpd : processedData wt (docs.filterMap answerTextOf) = [] := by
        unfold processedData
        rw [hf]
        rfl
      rw [if_pos hpd]
    rw [hg]

/-- Witness for the amended C4 at a concrete input: both branches at
concrete documents. -/
theorem c4_witness :
    process_survey_responses_task wt_spec WRatio_spec [PyVal.other] 2 =
      ⟨2, "completed_no_data", [], ["No valid answer texts found to process."]⟩ ∧
    process_survey_responses_task wt_spec WRatio_spec [PyVal.str " ", PyVal.str ""] 3 =
      ⟨3, "completed", [], []⟩ :=
  ⟨(c4_no_data_status wt_spec WRatio_spec [PyVal.other] 2).1 (by decide),
   (c4_no_data_status wt_spec WRatio_spec [PyVal.str " ", PyVal.str ""] 3).2
     (by decide) (by decide)⟩


/-- Counterexample to claim C9 as stated: greedy leader clustering is not
threshold-monotone, because raising the threshold can change which answer
seeds a group.  With the spec-modelled scorer, "aaaaa"/"aabbb" score 70,
"aaaaa"/"abbbb" score 60 and "aabbb"/"abbbb" score 90; at threshold 70 the
first answer absorbs "aabbb" and leaves "abbbb" alone, while at the higher
threshold 80 the first answer stays alone and "aabbb" seeds a group that
absorbs "abbbb" — a merge absent at the lower threshold. -/
theorem c9_counterexample :
    (70 : Nat) < 80 ∧
    inSameGroup (group_responses wt_spec WRatio_spec ["aaaaa", "aabbb", "abbbb"] 80)
      "aabbb" "abbbb" ∧
    ¬ inSameGroup (group_responses wt_spec WRatio_spec ["aaaaa", "aabbb", "abbbb"] 70)
      "aabbb" "abbbb" := by
  decide

/-- Claim C9 as amended: threshold monotonicity does hold for the group
seeded by the first surviving answer (whose seed cannot change): any two
answers that the first group contains at the higher threshold t2 lie in a
common group — the first group — at any lower threshold t1. -/
theorem c9_first_group_monotone (score : String → String → Nat) (t1 t2 : Nat)
    (h12 : t1 ≤ t2) (q : String × String) (pd : List (String × String))
    (g2 : GroupedAnswer) (l2 : List GroupedAnswer)
    (h2 : greedy score t2 (q :: pd) = g2 :: l2)
    (x y : String) (hx : x ∈ g2.raw_answers) (hy : y ∈ g2.raw_answers) :
    inSameGroup (greedy score t1 (q :: pd)) x y := by
  obtain ⟨o, p⟩ := q
  simp only [greedy, List.length_cons, greedyAux, List.cons.injEq] at h2
  obtain ⟨hg2, -⟩ := h2
  have hmono : ∀ z, z ∈ g2.raw_answers →
      z ∈ o :: (pd.filter (fun q => decide (t1 ≤ score p q.2))).map Prod.fst := by
    intro z hz
    rw [← hg2] at hz
    rcases List.mem_cons.mp hz with rfl | hz'
    · exact List.mem_cons_self _ _
    · obtain ⟨pair, hpair, rfl⟩ := List.mem_map.mp hz'
      obtain ⟨hmem, hcond⟩ := List.mem_filter.mp hpair
      refine List.mem_cons_of_mem _
        (List.mem_map.mpr ⟨pair, List.mem_filter.mpr ⟨hmem, ?_⟩, rfl⟩)
      simp only [decide_eq_true_eq] at hcond ⊢
      exact le_trans h12 hcond
  show ∃ g ∈ greedy score t1 ((o, p) :: pd), x ∈ g.raw_answers ∧ y ∈ g.raw_answers
  refine ⟨⟨p,
      ((o :: (pd.filter (fun q => decide (t1 ≤ score p q.2))).map Prod.fst).length : Int),
      o :: (pd.filter (fun q => decide (t1 ≤ score p q.2))).map Prod.fst⟩,
    ?_, hmono x hx, hmono y hy⟩
  simp only [greedy, List.length_cons, greedyAux]
  exact List.mem_cons_self _ _

/-- Witness for the amended C9 at a concrete input: "dog" sits in the
first group at threshold 90, hence also shares a group with itself at the
lower threshold 80. -/
theorem c9_witness :
    inSameGroup (greedy (calculate_similarity WRatio_spec) 80
      [("dog", "dog"), ("cat", "cat")]) "dog" "dog" :=
  c9_first_group_monotone (calculate_similarity WRatio_spec) 80 90 (by decide)
    ("dog", "dog") [("cat", "cat")] ⟨"dog", 1, ["dog"]⟩ [⟨"cat", 1, ["cat"]⟩]
    (by decide) "dog" "dog" (by decide) (by decide)

end FeudSpec
